import Mathlib

/-!
Shallow embedding of the langconnect collection and document access layer
(src/langconnect/database/collections.py and src/langconnect/database/documents.py),
together with theorems settling the specification claims about it.

Modelling conventions:
* Metadata payloads (JSONB dicts) are association lists from string keys to JSON
  scalar values, with Python dict insertion-order update semantics.
* The two tables are lists of rows; fetchrow is List.find? (first match in table
  order), filters are SQL WHERE clauses translated literally.
* Backend failure is injected through a flag on the connection: when set, every
  query raises that error, which models a connection or query-execution failure.
  Operations that catch exceptions in the source are translated with an explicit
  match on the raised error.
-/

/-- JSON scalar value stored in a metadata payload. -/
inductive JValue where
  | jnull : JValue
  | jbool : Bool → JValue
  | jnum : Int → JValue
  | jstr : String → JValue
deriving DecidableEq, Repr

/-- A metadata dict: insertion-ordered association list with unique keys by use. -/
abbrev Metadata := List (String × JValue)

/-- Python dict update `m[k] = v`: overwrite in place when the key exists,
append at the end otherwise (insertion-order semantics). -/
def dictSet (m : Metadata) (k : String) (v : JValue) : Metadata :=
  if m.any (fun p => p.1 == k) then
    m.map (fun p => if p.1 == k then (k, v) else p)
  else
    m ++ [(k, v)]

/-- SQL `value->>key` text extraction on a JSON scalar: JSON null maps to SQL NULL. -/
def jsonbText : JValue → Option String
  | .jnull => none
  | .jbool b => some (if b then "true" else "false")
  | .jnum n => some (toString n)
  | .jstr s => some s

/-- SQL `cmetadata->>k` over a metadata dict. -/
def metaText (m : Metadata) (k : String) : Option String :=
  (m.lookup k).bind jsonbText

/-- Lexicographic comparison of character lists by code point, the model of
the text ordering the backend uses for ORDER BY on text columns. -/
def charsLt : List Char → List Char → Bool
  | [], [] => false
  | [], _ :: _ => true
  | _ :: _, [] => false
  | a :: as, b :: bs =>
    if a < b then true
    else if b < a then false
    else charsLt as bs

/-- Text ordering on strings: lexicographic by code point. -/
def strLt (a b : String) : Bool :=
  charsLt a.toList b.toList

/-- One row of the langchain_pg_collection table. -/
structure CollectionRow where
  uuid : String
  name : String
  cmetadata : Metadata
deriving DecidableEq, Repr

/-- One row of the langchain_pg_embedding table. The integer id is the chunk id
used by the deduplicated listing; the uuid column is the key used by the direct
single-chunk fetch. -/
structure EmbeddingRow where
  id : Nat
  uuid : String
  collection_id : String
  document : String
  cmetadata : Metadata
deriving DecidableEq, Repr

/-- The storage backend state: the two tables. -/
structure DB where
  collections : List CollectionRow
  embeddings : List EmbeddingRow
deriving DecidableEq, Repr

/-- Errors a query can raise: the relation-missing condition caught separately
by the source (asyncpg UndefinedTableError), or any other backend failure. -/
inductive DbError where
  | undefinedTable : DbError
  | other : String → DbError
deriving DecidableEq, Repr

/-- A database connection as seen by one operation: the table state plus an
optional injected failure that every query on this connection raises. -/
structure Backend where
  db : DB
  failure : Option DbError
deriving DecidableEq, Repr

/-- Errors raised by the Collections registry as HTTPException: 409 Conflict,
404 NotFound, and the `assert created` failure in create. -/
inductive ApiError where
  | conflict : ApiError
  | notFound : ApiError
  | assertionFailed : ApiError
deriving DecidableEq, Repr

/-- Result shape of the Collections registry operations (CollectionDetails in
the source). `_parse_metadata` normalizes raw JSONB into a dict; rows in the
model store the dict itself, so the normalization is the identity here. -/
structure CollectionDetails where
  uuid : String
  name : String
  metadata : Metadata
deriving DecidableEq, Repr

/-- Row to details conversion performed by every registry read. -/
def CollectionRow.details (c : CollectionRow) : CollectionDetails :=
  { uuid := c.uuid, name := c.name, metadata := c.cmetadata }

/-- The ownership filter: SQL `cmetadata->>'owner_id' = user_id`. -/
def ownedB (c : CollectionRow) (user_id : String) : Bool :=
  metaText c.cmetadata "owner_id" == some user_id

namespace Collections

/-- Collections.list: rows with `cmetadata->>'owner_id' = user_id`, ORDER BY name. -/
def list (user_id : String) (db : DB) : List CollectionDetails :=
  ((db.collections.filter (fun c => ownedB c user_id)).insertionSort
      (fun a b => strLt b.name a.name = false)).map CollectionRow.details

/-- Collections.get: fetchrow WHERE uuid = collection_id AND owner filter. -/
def get (user_id collection_id : String) (db : DB) : Option CollectionDetails :=
  (db.collections.find? (fun c => c.uuid == collection_id && ownedB c user_id)).map
    CollectionRow.details

/-- Collections._get_by_name: fetchrow WHERE name = collection_name AND owner filter. -/
def get_by_name (user_id collection_name : String) (db : DB) : Option CollectionDetails :=
  (db.collections.find? (fun c => c.name == collection_name && ownedB c user_id)).map
    CollectionRow.details

/-- Modelled from the spec: `get_vectorstore(collection_name, collection_metadata)`
lives in langconnect/database/connection.py, which is not under src. Per the spec
it persists a new Collection row with a storage-generated id, the given name and
the given metadata; the generated id is passed here explicitly as fresh_uuid. -/
def persistNewCollection (collection_name : String) (md : Metadata) (fresh_uuid : String)
    (db : DB) : DB :=
  { db with collections := db.collections ++ [⟨fresh_uuid, collection_name, md⟩] }

/-- Collections.create: pre-check by name+owner, 409 on hit; otherwise copy the
caller metadata, force owner_id, persist through the vector store, and re-read
the created row (the source asserts the re-read succeeds). -/
def create (user_id collection_name : String) (metadata : Option Metadata)
    (fresh_uuid : String) (db : DB) : Except ApiError (CollectionDetails × DB) :=
  match get_by_name user_id collection_name db with
  | some _ => .error .conflict
  | none =>
    let md := dictSet (metadata.getD []) "owner_id" (.jstr user_id)
    let db1 := persistNewCollection collection_name md fresh_uuid db
    match get_by_name user_id collection_name db1 with
    | some created => .ok (created, db1)
    | none => .error .assertionFailed

/-- Collections.update: UPDATE SET name = COALESCE(new_name, name),
cmetadata = COALESCE(metadata_json, cmetadata) WHERE uuid AND owner filter,
RETURNING the updated row; owner_id is force-set into a supplied metadata first.
404 when no row matches. -/
def update (user_id collection_id : String) (new_name : Option String)
    (metadata : Option Metadata) (db : DB) : Except ApiError (CollectionDetails × DB) :=
  let md := metadata.map (fun m => dictSet m "owner_id" (.jstr user_id))
  let hit := fun (c : CollectionRow) => c.uuid == collection_id && ownedB c user_id
  let applyUpd := fun (c : CollectionRow) =>
    { c with name := new_name.getD c.name, cmetadata := md.getD c.cmetadata }
  match db.collections.find? hit with
  | none => .error .notFound
  | some c =>
    .ok ((applyUpd c).details,
      { db with collections := db.collections.map (fun r => if hit r then applyUpd r else r) })

/-- Collections.delete: DELETE WHERE uuid AND owner filter; the affected-row
count is parsed from the command tag, 404 when it is zero. -/
def delete (user_id collection_id : String) (db : DB) : Except ApiError (Nat × DB) :=
  let hit := fun (c : CollectionRow) => c.uuid == collection_id && ownedB c user_id
  let count := (db.collections.filter hit).length
  if count == 0 then .error .notFound
  else .ok (count, { db with collections := db.collections.filter (fun c => !(hit c)) })

end Collections

/-- Modelled from the spec: the storage schema (created by the vector-store
library through connection.py, not under src) foreign-keys Chunks to their
Collection with cascade deletion, so chunk rows whose collection row is gone
are removed by the backend. -/
def cascadeChunks (db : DB) : DB :=
  { db with
    embeddings := db.embeddings.filter fun e =>
      db.collections.any fun c => c.uuid == e.collection_id }

/-- deleteCollection as the spec describes it: the registry delete followed by
the schema-level cascade on the Chunks table. -/
def deleteCollection (user_id collection_id : String) (db : DB) :
    Except ApiError (Nat × DB) :=
  (Collections.delete user_id collection_id db).map (fun p => (p.1, cascadeChunks p.2))

/-- SQL `cmetadata->>'file_id'` on a chunk row. -/
def fileIdText (e : EmbeddingRow) : Option String :=
  metaText e.cmetadata "file_id"

/-- The text sort key used by `ORDER BY cmetadata->>'file_id'`; rows reaching
the sort all satisfy the `IS NOT NULL` filter, so the default is never used. -/
def fidKey (e : EmbeddingRow) : String :=
  (fileIdText e).getD ""

theorem charsLt_irrefl (l : List Char) : charsLt l l = false := by
  induction l with
  | nil => rfl
  | cons a t ih => simp [charsLt, lt_irrefl, ih]

theorem charsLt_trans {l1 l2 l3 : List Char} (h1 : charsLt l1 l2 = true)
    (h2 : charsLt l2 l3 = true) : charsLt l1 l3 = true := by
  induction l1 generalizing l2 l3 with
  | nil =>
    cases l2 with
    | nil => simp [charsLt] at h1
    | cons b bs =>
      cases l3 with
      | nil => simp [charsLt] at h2
      | cons c cs => rfl
  | cons a as ih =>
    cases l2 with
    | nil => simp [charsLt] at h1
    | cons b bs =>
      cases l3 with
      | nil => simp [charsLt] at h2
      | cons c cs =>
        by_cases hab : a < b
        · by_cases hbc : b < c
          · simp [charsLt, lt_trans hab hbc]
          · by_cases hcb : c < b
            · simp [charsLt, hbc, hcb] at h2
            · have hec : b = c := le_antisymm (not_lt.mp hcb) (not_lt.mp hbc)
              subst hec
              simp [charsLt, hab]
        · by_cases hba : b < a
          · simp [charsLt, hab, hba] at h1
          · have hea : a = b := le_antisymm (not_lt.mp hba) (not_lt.mp hab)
            subst hea
            simp only [charsLt, lt_irrefl, if_false] at h1
            by_cases hac : a < c
            · simp [charsLt, hac]
            · by_cases hca : c < a
              · simp [charsLt, hac, hca] at h2
              · have hec : a = c := le_antisymm (not_lt.mp hca) (not_lt.mp hac)
                subst hec
                simp only [charsLt, lt_irrefl, if_false] at h2 ⊢
                exact ih h1 h2

theorem charsLt_antisymm_eq {l1 l2 : List Char} (h1 : charsLt l1 l2 = false)
    (h2 : charsLt l2 l1 = false) : l1 = l2 := by
  induction l1 generalizing l2 with
  | nil =>
    cases l2 with
    | nil => rfl
    | cons b bs => simp [charsLt] at h1
  | cons a as ih =>
    cases l2 with
    | nil => simp [charsLt] at h2
    | cons b bs =>
      by_cases hab : a < b
      · simp [charsLt, hab] at h1
      · by_cases hba : b < a
        · simp [charsLt, hba] at h2
        · have hea : a = b := le_antisymm (not_lt.mp hba) (not_lt.mp hab)
          subst hea
          simp only [charsLt, lt_irrefl, if_false] at h1 h2
          rw [ih h1 h2]

theorem strLt_trans {a b c : String} (h1 : strLt a b = true) (h2 : strLt b c = true) :
    strLt a c = true :=
  charsLt_trans h1 h2

theorem strLt_irrefl (a : String) : strLt a a = false :=
  charsLt_irrefl _

theorem strLt_eq_of_not_either {a b : String} (h1 : strLt a b = false)
    (h2 : strLt b a = false) : a = b := by
  have h := charsLt_antisymm_eq h1 h2
  cases a
  cases b
  simp only [strLt, String.toList] at h
  simp [h]

/-- The `ORDER BY cmetadata->>'file_id', id` ordering of the DISTINCT ON subquery. -/
def embRel (a b : EmbeddingRow) : Prop :=
  strLt (fidKey a) (fidKey b) = true ∨ (fidKey a = fidKey b ∧ a.id ≤ b.id)

instance : DecidableRel embRel := fun a b =>
  decidable_of_iff
    (strLt (fidKey a) (fidKey b) = true ∨ (fidKey a = fidKey b ∧ a.id ≤ b.id)) Iff.rfl

instance : IsTotal EmbeddingRow embRel where
  total a b := by
    unfold embRel
    by_cases h1 : strLt (fidKey a) (fidKey b) = true
    · exact Or.inl (Or.inl h1)
    · by_cases h2 : strLt (fidKey b) (fidKey a) = true
      · exact Or.inr (Or.inl h2)
      · have he : fidKey a = fidKey b :=
          strLt_eq_of_not_either (Bool.not_eq_true _ ▸ h1) (Bool.not_eq_true _ ▸ h2)
        rcases Nat.le_total a.id b.id with h3 | h3
        · exact Or.inl (Or.inr ⟨he, h3⟩)
        · exact Or.inr (Or.inr ⟨he.symm, h3⟩)

instance : IsTrans EmbeddingRow embRel where
  trans a b c hab hbc := by
    unfold embRel at hab hbc ⊢
    rcases hab with hab | ⟨hab, hab2⟩
    · rcases hbc with hbc | ⟨hbc, _⟩
      · exact Or.inl (strLt_trans hab hbc)
      · exact Or.inl (hbc ▸ hab)
    · rcases hbc with hbc | ⟨hbc, hbc2⟩
      · exact Or.inl (hab ▸ hbc)
      · exact Or.inr ⟨hab.trans hbc, hab2.trans hbc2⟩

/-- Tail of the DISTINCT ON scan: prev is the last kept row; rows whose file_id
equals the one of prev are skipped, any other row starts a new group and is
kept. On input sorted by (file_id, id) the file_id groups are consecutive, so
this keeps exactly the first row of each group. -/
def distinctAux (prev : EmbeddingRow) : List EmbeddingRow → List EmbeddingRow
  | [] => []
  | e :: rest =>
    if fidKey e == fidKey prev then distinctAux prev rest
    else e :: distinctAux e rest

/-- `SELECT DISTINCT ON (cmetadata->>'file_id') ...` over a list already sorted
by `(file_id, id)`: keep the first row of each file_id group. -/
def distinctOn : List EmbeddingRow → List EmbeddingRow
  | [] => []
  | e :: rest => e :: distinctAux e rest

/-- The deduplicated, file_id-ordered view of the chunks of one collection:
filter by collection and non-null file_id, sort by (file_id, id), DISTINCT ON
file_id. The outer join and ORDER BY ufc.file_id of the source query return
exactly these representative rows in this order. -/
def chunkView (db : DB) (cuuid : String) : List EmbeddingRow :=
  distinctOn ((db.embeddings.filter
    (fun e => e.collection_id == cuuid && (fileIdText e).isSome)).insertionSort embRel)

/-- One entry of the document listing returned by list_documents_in_vectorstore. -/
structure DocEntry where
  id : String
  content : String
  metadata : Metadata
  collection_id : String
deriving DecidableEq, Repr

/-- Row to listing-entry conversion done in the Python loop over records. -/
def toEntry (cuuid : String) (e : EmbeddingRow) : DocEntry :=
  { id := toString e.id, content := e.document, metadata := e.cmetadata,
    collection_id := cuuid }

/-- fetchrow `SELECT uuid FROM langchain_pg_collection WHERE name = $1`:
no ownership filter; first row in table order. -/
def Backend.fetchCollectionByName (bk : Backend) (name : String) :
    Except DbError (Option CollectionRow) :=
  match bk.failure with
  | some e => .error e
  | none => .ok (bk.db.collections.find? (fun c => c.name == name))

/-- The deduplicating listing query with `LIMIT $2 OFFSET $3`. -/
def Backend.fetchListQuery (bk : Backend) (cuuid : String) (limit offset : Nat) :
    Except DbError (List EmbeddingRow) :=
  match bk.failure with
  | some e => .error e
  | none => .ok (((chunkView bk.db cuuid).drop offset).take limit)

/-- The try block of list_documents_in_vectorstore. -/
def listTryBody (bk : Backend) (collection_name : String) (limit offset : Nat) :
    Except DbError (List DocEntry) :=
  match bk.fetchCollectionByName collection_name with
  | .error e => .error e
  | .ok none => .ok []
  | .ok (some col) =>
    match bk.fetchListQuery col.uuid limit offset with
    | .error e => .error e
    | .ok rows => .ok (rows.map (toEntry col.uuid))

/-- list_documents_in_vectorstore: the try body, with UndefinedTableError and
any other exception both caught and converted into the empty listing. -/
def list_documents_in_vectorstore (bk : Backend) (collection_name : String)
    (limit offset : Nat) : Except DbError (List DocEntry) :=
  match listTryBody bk collection_name limit offset with
  | .ok docs => .ok docs
  | .error .undefinedTable => .ok []
  | .error (.other _) => .ok []

/-- Hex digit test used by the uuid format check. -/
def isHexDigit (c : Char) : Bool :=
  c.isDigit || (("a" ≤ c.toString && c.toString ≤ "f") || ("A" ≤ c.toString && c.toString ≤ "F"))

/-- Defensive parse `uuid.UUID(document_id)` of the Python uuid library
(an external collaborator): accept the canonical 8-4-4-4-12 hex form and
normalize to lower case; anything else raises ValueError, modelled as none.
The Python parser also accepts a few variant spellings, which is immaterial
to the claims settled here. -/
def uuidParse (s : String) : Option String :=
  let cs := s.toList
  if cs.length == 36
      && [8, 13, 18, 23].all (fun i => cs.getD i ' ' == '-')
      && (List.range 36).all
          (fun i => [8, 13, 18, 23].contains i || isHexDigit (cs.getD i ' '))
  then some s.toLower
  else none

/-- Result shape of get_document_from_vectorstore; the raw cmetadata is
returned without normalization in the source. -/
structure ChunkRecord where
  id : String
  content : String
  metadata : Metadata
deriving DecidableEq, Repr

/-- fetchrow `SELECT uuid, document, cmetadata FROM langchain_pg_embedding WHERE uuid = $1`. -/
def Backend.fetchEmbeddingByUuid (bk : Backend) (doc_uuid : String) :
    Except DbError (Option EmbeddingRow) :=
  match bk.failure with
  | some e => .error e
  | none => .ok (bk.db.embeddings.find? (fun r => r.uuid == doc_uuid))

/-- get_document_from_vectorstore: defensive id parse (format error yields
none), then the fetch, with every exception caught and converted into none. -/
def get_document_from_vectorstore (bk : Backend) (document_id : String) :
    Except DbError (Option ChunkRecord) :=
  match uuidParse document_id with
  | none => .ok none
  | some doc_uuid =>
    match bk.fetchEmbeddingByUuid doc_uuid with
    | .ok (some r) =>
      .ok (some { id := r.uuid, content := r.document, metadata := r.cmetadata })
    | .ok none => .ok none
    | .error _ => .ok none

/-- The bulk DELETE on langchain_pg_embedding:
`WHERE collection_id = $1 AND cmetadata->>'file_id' = ANY($2::text[])`.
Returns the new table state; the affected-row count is only printed by the
source, so it is not modelled. -/
def Backend.execDeleteChunks (bk : Backend) (cuuid : String) (fids : List String) :
    Except DbError DB :=
  match bk.failure with
  | some e => .error e
  | none => .ok { bk.db with
      embeddings := bk.db.embeddings.filter fun e =>
        !(e.collection_id == cuuid
          && (fileIdText e).elim false (fun f => fids.contains f)) }

/-- The try block of delete_documents_from_vectorstore: resolve the collection
by name (no ownership filter), report failure when absent, else run the bulk
delete and report success. -/
def deleteTryBody (bk : Backend) (collection_name : String) (file_ids : List String) :
    Except DbError (Bool × DB) :=
  match bk.fetchCollectionByName collection_name with
  | .error e => .error e
  | .ok none => .ok (false, bk.db)
  | .ok (some col) =>
    match bk.execDeleteChunks col.uuid file_ids with
    | .error e => .error e
    | .ok db1 => .ok (true, db1)

/-- delete_documents_from_vectorstore: empty file_ids short-circuits to success
before any query; otherwise the try body runs, with UndefinedTableError and any
other exception both caught and converted into a false result. -/
def delete_documents_from_vectorstore (bk : Backend) (collection_name : String)
    (file_ids : List String) : Except DbError (Bool × DB) :=
  if file_ids.isEmpty then .ok (true, bk.db)
  else
    match deleteTryBody bk collection_name file_ids with
    | .ok r => .ok r
    | .error .undefinedTable => .ok (false, bk.db)
    | .error (.other _) => .ok (false, bk.db)

/-- Python truthiness of a JSON scalar. -/
def pyTruthy : JValue → Bool
  | .jnull => false
  | .jbool b => b
  | .jnum n => n != 0
  | .jstr s => s != ""

/-- Python truthiness of `dict.get` output; None is falsy. -/
def pyTruthyO : Option JValue → Bool
  | none => false
  | some v => pyTruthy v

/-- Python `a or b` over two `dict.get` results. -/
def pyOr (a b : Option JValue) : Option JValue :=
  if pyTruthyO a then a else b

/-- Python `str` of a JSON scalar. -/
def pyStr : JValue → String
  | .jnull => "None"
  | .jbool b => if b then "True" else "False"
  | .jnum n => toString n
  | .jstr s => s

/-- A langchain Document as returned by the vector-search black box. -/
structure PyDoc where
  page_content : String
  metadata : Metadata
deriving DecidableEq, Repr

/-- One formatted hit of search_documents_in_vectorstore. The score type is a
parameter: scores come from the black box and pass through untouched. -/
structure SearchHit (σ : Type) where
  id : Option String
  page_content : String
  metadata : Metadata
  score : σ
deriving DecidableEq, Repr

/-- search_documents_in_vectorstore, applied to the (document, score) pairs the
similarity-search black box returns:
`doc_id = doc.metadata.get("uuid") or doc.metadata.get("id")` and
`"id": str(doc_id) if doc_id else None`. -/
def search_documents_in_vectorstore {σ : Type} (results_with_scores : List (PyDoc × σ)) :
    List (SearchHit σ) :=
  results_with_scores.map fun r =>
    let doc_id := pyOr (r.1.metadata.lookup "uuid") (r.1.metadata.lookup "id")
    { id := if pyTruthyO doc_id then doc_id.map pyStr else none,
      page_content := r.1.page_content,
      metadata := r.1.metadata,
      score := r.2 }

/-- The hit-id selection rule as the specification claim words it: the string
of the uuid value when the key is present, else the id value when that key is
present, else None. Stated for refinement comparison with the source rule. -/
def claimHitId (m : Metadata) : Option String :=
  match m.lookup "uuid" with
  | some v => some (pyStr v)
  | none =>
    match m.lookup "id" with
    | some v => some (pyStr v)
    | none => none

/-! ### Helper lemmas -/

theorem lookup_dictSet (m : Metadata) (k : String) (v : JValue) :
    (dictSet m k v).lookup k = some v := by
  induction m with
  | nil => simp [dictSet]
  | cons p t ih =>
    by_cases hk : p.1 = k
    · simp [dictSet, hk]
    · have e1 : dictSet (p :: t) k v = p :: dictSet t k v := by
        by_cases ht : t.any (fun q => q.1 == k) <;> simp [dictSet, hk, ht]
      rw [e1]
      obtain ⟨pk, pv⟩ := p
      simp only at hk
      have hkb : (k == pk) = false := by
        simp [beq_eq_false_iff_ne, Ne.symm hk]
      simpa [List.lookup, hkb] using ih

theorem metaText_dictSet_owner (m : Metadata) (u : String) :
    metaText (dictSet m "owner_id" (.jstr u)) "owner_id" = some u := by
  simp [metaText, lookup_dictSet, jsonbText]

theorem find?_append_singleton {α : Type} (p : α → Bool) (l : List α) (x : α)
    (hl : l.find? p = none) (hx : p x = true) : (l ++ [x]).find? p = some x := by
  induction l with
  | nil => simp [List.find?, hx]
  | cons a t ih =>
    by_cases hpa : p a = true
    · rw [List.find?_cons_of_pos t hpa] at hl
      exact absurd hl (by simp)
    · rw [List.find?_cons_of_neg t hpa] at hl
      rw [List.cons_append, List.find?_cons_of_neg _ hpa]
      exact ih hl

theorem create_ok_of_not_exists (u cname : String) (mo : Option Metadata) (fresh : String)
    (db : DB)
    (h : db.collections.find? (fun c => c.name == cname && ownedB c u) = none) :
    Collections.create u cname mo fresh db = .ok
      ((⟨fresh, cname, dictSet (mo.getD []) "owner_id" (.jstr u)⟩ : CollectionRow).details,
        Collections.persistNewCollection cname
          (dictSet (mo.getD []) "owner_id" (.jstr u)) fresh db) := by
  have hpred : ((⟨fresh, cname, dictSet (mo.getD []) "owner_id" (.jstr u)⟩ :
      CollectionRow).name == cname
      && ownedB ⟨fresh, cname, dictSet (mo.getD []) "owner_id" (.jstr u)⟩ u) = true := by
    simp [ownedB, metaText_dictSet_owner]
  have hfind := find?_append_singleton _ db.collections _ h hpred
  simp [Collections.create, Collections.get_by_name, Collections.persistNewCollection, h, hfind]

/-! ### Claim theorems -/

/-- C2: every create and every update persists, and returns, metadata whose
owner_id key holds the authenticated caller id, regardless of any owner_id the
caller supplied in the metadata argument. -/
theorem create_update_force_owner_id (u cname cid fresh : String)
    (metaArg : Option Metadata) (mArg : Metadata) (nn : Option String) (db : DB) :
    (∀ d db1, Collections.create u cname metaArg fresh db = .ok (d, db1) →
      d.metadata.lookup "owner_id" = some (.jstr u) ∧
      ∀ c ∈ db1.collections, c ∉ db.collections →
        c.cmetadata.lookup "owner_id" = some (.jstr u)) ∧
    (∀ d db1, Collections.update u cid nn (some mArg) db = .ok (d, db1) →
      d.metadata.lookup "owner_id" = some (.jstr u) ∧
      ∀ c ∈ db1.collections, c ∉ db.collections →
        c.cmetadata.lookup "owner_id" = some (.jstr u)) := by
  constructor
  · intro d db1 hok
    cases hg : Collections.get_by_name u cname db with
    | some x =>
      simp [Collections.create, hg] at hok
    | none =>
      have hfind : db.collections.find? (fun c => c.name == cname && ownedB c u) = none := by
        simpa [Collections.get_by_name, Option.map_eq_none'] using hg
      have := create_ok_of_not_exists u cname metaArg fresh db hfind
      rw [this] at hok
      obtain ⟨hd, hdb⟩ : _ ∧ _ := by
        injection hok with h1
        injection h1 with h2 h3
        exact ⟨h2, h3⟩
      constructor
      · rw [← hd]
        simp [CollectionRow.details, lookup_dictSet]
      · intro c hc hcnot
        rw [← hdb] at hc
        simp [Collections.persistNewCollection] at hc
        rcases hc with hc | hc
        · exact absurd hc hcnot
        · rw [hc]
          simp [lookup_dictSet]
  · intro d db1 hok
    cases hf : db.collections.find? (fun c => c.uuid == cid && ownedB c u) with
    | none => simp [Collections.update, hf] at hok
    | some c0 =>
      simp only [Collections.update, hf] at hok
      obtain ⟨hd, hdb⟩ : _ ∧ _ := by
        injection hok with h1
        injection h1 with h2 h3
        exact ⟨h2, h3⟩
      constructor
      · rw [← hd]
        simp [CollectionRow.details, lookup_dictSet]
      · intro c hc hcnot
        rw [← hdb] at hc
        simp only [List.mem_map] at hc
        obtain ⟨r, hr, hrc⟩ := hc
        by_cases hhit : (r.uuid == cid && ownedB r u) = true
        · rw [if_pos hhit] at hrc
          rw [← hrc]
          simp [lookup_dictSet]
        · rw [if_neg hhit] at hrc
          exact absurd (hrc ▸ hr) hcnot

/-- C2 witness: creating with a caller-supplied owner_id of "evil" still
persists and returns owner_id "u1". -/
theorem create_update_force_owner_id_witness :
    ({ uuid := "f1", name := "n",
       metadata := [("owner_id", JValue.jstr "u1")] } : CollectionDetails).metadata.lookup
        "owner_id" = some (.jstr "u1") :=
  ((create_update_force_owner_id "u1" "n" "x" "f1"
      (some [("owner_id", .jstr "evil")]) [] none ⟨[], []⟩).1
    { uuid := "f1", name := "n", metadata := [("owner_id", JValue.jstr "u1")] }
    ⟨[⟨"f1", "n", [("owner_id", JValue.jstr "u1")]⟩], []⟩ (by rfl)).1

/-- C5: when every row carrying the requested uuid is not owned by the caller
(in particular when the collection belongs to a different user, or when no row
has that uuid at all), get returns none, and the outcome is identical to the
outcome on the table with every row of that uuid removed. -/
theorem get_cross_user_indistinguishable_from_absent (u cid : String) (db : DB)
    (h : ∀ c ∈ db.collections, c.uuid = cid → ownedB c u = false) :
    Collections.get u cid db = none ∧
    Collections.get u cid db =
      Collections.get u cid ⟨db.collections.filter (fun c => !(c.uuid == cid)), db.embeddings⟩ := by
  have h1 : db.collections.find? (fun c => c.uuid == cid && ownedB c u) = none := by
    rw [List.find?_eq_none]
    intro x hx hcontra
    simp only [Bool.and_eq_true, beq_iff_eq] at hcontra
    rw [h x hx hcontra.1] at hcontra
    exact Bool.false_ne_true hcontra.2
  have h2 : (db.collections.filter (fun c => !(c.uuid == cid))).find?
      (fun c => c.uuid == cid && ownedB c u) = none := by
    rw [List.find?_eq_none]
    intro x hx hcontra
    simp only [List.mem_filter, Bool.not_eq_eq_eq_not, Bool.not_true, beq_eq_false_iff_ne] at hx
    simp only [Bool.and_eq_true, beq_iff_eq] at hcontra
    exact hx.2 hcontra.1
  refine ⟨by simp [Collections.get, h1], ?_⟩
  simp [Collections.get, h1, h2]

/-- C5 witness: on a table holding one collection owned by u2, both the lookup
by user u1 and the lookup on the table without that row return none. -/
theorem get_cross_user_indistinguishable_from_absent_witness :
    Collections.get "u1" "c1" ⟨[⟨"c1", "col", [("owner_id", JValue.jstr "u2")]⟩], []⟩ = none :=
  (get_cross_user_indistinguishable_from_absent "u1" "c1"
    ⟨[⟨"c1", "col", [("owner_id", JValue.jstr "u2")]⟩], []⟩ (by decide)).1

/-- C6: update applies COALESCE semantics per field: an absent new_name or
metadata argument leaves the stored field unchanged, while a supplied metadata
replaces the stored metadata wholesale (the previous metadata does not appear
in the result) except that owner_id is force-set to the caller id. -/
theorem update_partial_wholesale_semantics (u cid : String) (nn : Option String)
    (mo : Option Metadata) (db : DB) (c : CollectionRow)
    (hfind : db.collections.find? (fun r => r.uuid == cid && ownedB r u) = some c) :
    Collections.update u cid nn mo db = .ok
      ({ uuid := c.uuid, name := nn.getD c.name,
         metadata := (mo.map fun m => dictSet m "owner_id" (.jstr u)).getD c.cmetadata },
       { db with collections := db.collections.map fun r =>
           if r.uuid == cid && ownedB r u then
             { r with name := nn.getD r.name,
                      cmetadata := (mo.map fun m =>
                        dictSet m "owner_id" (.jstr u)).getD r.cmetadata }
           else r }) := by
  simp [Collections.update, hfind, CollectionRow.details]

/-- C6 witness: after a create with metadata {"a": 1}, an update supplying
{"a": 2} yields exactly {"a": 2, "owner_id": u}, not a merge with {"a": 1}. -/
theorem update_partial_wholesale_semantics_witness :
    Collections.update "u" "id1" none (some [("a", .jnum 2)])
      ⟨[⟨"id1", "n", [("a", JValue.jnum 1), ("owner_id", JValue.jstr "u")]⟩], []⟩ = .ok
      ({ uuid := "id1", name := "n",
         metadata := [("a", JValue.jnum 2), ("owner_id", JValue.jstr "u")] },
       ⟨[⟨"id1", "n", [("a", JValue.jnum 2), ("owner_id", JValue.jstr "u")]⟩], []⟩) := by
  have := update_partial_wholesale_semantics "u" "id1" none (some [("a", .jnum 2)])
    ⟨[⟨"id1", "n", [("a", JValue.jnum 1), ("owner_id", JValue.jstr "u")]⟩], []⟩
    ⟨"id1", "n", [("a", JValue.jnum 1), ("owner_id", JValue.jstr "u")]⟩ (by rfl)
  simpa using this

/-- C8: create fails with Conflict exactly when a collection with that name
already exists for the same user; consequently a second create with the same
user and name yields Conflict, while a create with the same name by a different
user (who does not already hold that name) succeeds. -/
theorem create_conflict_iff_duplicate_per_owner (u cname : String) (mo : Option Metadata)
    (fresh : String) (db : DB) :
    (Collections.create u cname mo fresh db = .error .conflict ↔
      ∃ c ∈ db.collections, c.name = cname ∧ ownedB c u = true) ∧
    (∀ d db1 mo2 f2, Collections.create u cname mo fresh db = .ok (d, db1) →
      Collections.create u cname mo2 f2 db1 = .error .conflict) ∧
    (∀ u2 mo2 f2 d db1, u2 ≠ u →
      (∀ c ∈ db.collections, ¬(c.name = cname ∧ ownedB c u2 = true)) →
      Collections.create u cname mo fresh db = .ok (d, db1) →
      ∃ d2 db2, Collections.create u2 cname mo2 f2 db1 = .ok (d2, db2)) := by
  have key : ∀ (uu : String) (moo : Option Metadata) (ff : String) (dbb : DB),
      (Collections.create uu cname moo ff dbb = .error .conflict ↔
        ∃ c ∈ dbb.collections, c.name = cname ∧ ownedB c uu = true) := by
    intro uu moo ff dbb
    constructor
    · intro herr
      cases hf : dbb.collections.find? (fun c => c.name == cname && ownedB c uu) with
      | some a =>
        refine ⟨a, List.mem_of_find?_eq_some hf, ?_⟩
        have := List.find?_some hf
        simpa [Bool.and_eq_true, beq_iff_eq] using this
      | none =>
        rw [create_ok_of_not_exists uu cname moo ff dbb hf] at herr
        exact absurd herr (by simp)
    · rintro ⟨c, hc, hname, howned⟩
      have hsome : (dbb.collections.find? (fun c => c.name == cname && ownedB c uu)).isSome := by
        rw [List.find?_isSome]
        exact ⟨c, hc, by simp [hname, howned]⟩
      obtain ⟨a, ha⟩ := Option.isSome_iff_exists.mp hsome
      simp [Collections.create, Collections.get_by_name, ha]
  refine ⟨key u mo fresh db, ?_, ?_⟩
  · intro d db1 mo2 f2 hok
    cases hf : db.collections.find? (fun c => c.name == cname && ownedB c u) with
    | some a => simp [Collections.create, Collections.get_by_name, hf] at hok
    | none =>
      rw [create_ok_of_not_exists u cname mo fresh db hf] at hok
      obtain ⟨hd, hdb⟩ : _ ∧ _ := by
        injection hok with h1
        injection h1 with h2 h3
        exact ⟨h2, h3⟩
      rw [key u mo2 f2 db1, ← hdb]
      exact ⟨⟨fresh, cname, dictSet (mo.getD []) "owner_id" (.jstr u)⟩,
        by simp [Collections.persistNewCollection],
        rfl, by simp [ownedB, metaText_dictSet_owner]⟩
  · intro u2 mo2 f2 d db1 hne h2 hok
    cases hf : db.collections.find? (fun c => c.name == cname && ownedB c u) with
    | some a => simp [Collections.create, Collections.get_by_name, hf] at hok
    | none =>
      rw [create_ok_of_not_exists u cname mo fresh db hf] at hok
      obtain ⟨hd, hdb⟩ : _ ∧ _ := by
        injection hok with h1
        injection h1 with h2' h3
        exact ⟨h2', h3⟩
      have hnone2 : db1.collections.find? (fun c => c.name == cname && ownedB c u2) = none := by
        rw [List.find?_eq_none]
        intro x hx hcontra
        simp only [Bool.and_eq_true, beq_iff_eq] at hcontra
        rw [← hdb] at hx
        simp only [Collections.persistNewCollection, List.mem_append,
          List.mem_singleton] at hx
        rcases hx with hx | hx
        · exact h2 x hx ⟨hcontra.1, hcontra.2⟩
        · have : ownedB x u2 = true := hcontra.2
          rw [hx] at this
          simp only [ownedB, metaText_dictSet_owner] at this
          have hu : u = u2 := by simpa using this
          exact hne hu.symm
      exact ⟨_, _, create_ok_of_not_exists u2 cname mo2 f2 db1 hnone2⟩

/-- C8 witness: after user u creates collection X on an empty table, a second
create of X by u yields Conflict. -/
theorem create_conflict_iff_duplicate_per_owner_witness :
    Collections.create "u" "X" none "f2"
      ⟨[⟨"f1", "X", [("owner_id", JValue.jstr "u")]⟩], []⟩ = .error .conflict :=
  (create_conflict_iff_duplicate_per_owner "u" "X" none "f1" ⟨[], []⟩).2.1
    ⟨"f1", "X", [("owner_id", JValue.jstr "u")]⟩
    ⟨[⟨"f1", "X", [("owner_id", JValue.jstr "u")]⟩], []⟩ none "f2" (by rfl)

/-- C9 counterexample: with an empty file_ids argument the operation returns
success before ever resolving the collection, so a call naming a collection
that does not exist (here, any name on an empty table) returns true, not false. -/
theorem deleteByFile_empty_ids_missing_collection_cex :
    delete_documents_from_vectorstore ⟨⟨[], []⟩, none⟩ "missing" [] = .ok (true, ⟨[], []⟩) ∧
    (⟨[], []⟩ : DB).collections.find? (fun c => c.name == "missing") = none ∧
    Except.ok (true, (⟨[], []⟩ : DB)) ≠
      (.ok (false, (⟨[], []⟩ : DB)) : Except DbError (Bool × DB)) :=
  ⟨rfl, rfl, by simp⟩

/-- C9 amended: for every call with a non-empty file_ids list where the named
collection does not exist, deleteDocumentsByFile reports failure (returns
false); a call with empty file_ids short-circuits to success without touching
any row, even when the collection is absent. -/
theorem deleteByFile_missing_collection_false (db : DB) (name : String)
    (fids : List String) (hne : fids ≠ [])
    (habs : db.collections.find? (fun c => c.name == name) = none) :
    delete_documents_from_vectorstore ⟨db, none⟩ name fids = .ok (false, db) ∧
    ∀ bk : Backend, delete_documents_from_vectorstore bk name [] = .ok (true, bk.db) := by
  constructor
  · have hempty : fids.isEmpty = false := by
      cases fids with
      | nil => exact absurd rfl hne
      | cons a t => rfl
    simp [delete_documents_from_vectorstore, hempty, deleteTryBody,
      Backend.fetchCollectionByName, habs]
  · intro bk
    simp [delete_documents_from_vectorstore]

/-- C9 witness: on an empty table, deleting file f1 from a missing collection
returns false, and an empty file_ids call returns true. -/
theorem deleteByFile_missing_collection_false_witness :
    delete_documents_from_vectorstore ⟨⟨[], []⟩, none⟩ "missing" ["f1"] =
      .ok (false, ⟨[], []⟩) :=
  (deleteByFile_missing_collection_false ⟨[], []⟩ "missing" ["f1"]
    (by simp) (by rfl)).1

/-- C10 counterexample: the source selects the hit id by Python truthiness, not
key presence. For metadata holding uuid = "" (present but falsy) and id =
"abc", the claim predicts id "" (the string of the uuid value), but the code
returns "abc". -/
theorem search_hit_id_presence_cex :
    (search_documents_in_vectorstore
        [(⟨"txt", [("uuid", .jstr ""), ("id", .jstr "abc")]⟩, (0 : Int))]).map SearchHit.id
      = [some "abc"] ∧
    claimHitId [("uuid", .jstr ""), ("id", .jstr "abc")] = some "" ∧
    (some "abc" : Option String) ≠ some "" := by
  refine ⟨by rfl, by rfl, by simp⟩

/-- C10 amended: every hit of the black box is returned (none dropped); each
output hit keeps its content, metadata and score, and its id is the string of
the metadata uuid value when that value is present and truthy, else the string
of the metadata id value when that one is present and truthy, else None — in
particular a hit whose metadata has neither key is returned with id None. -/
theorem search_hit_id_truthiness {σ : Type} (results : List (PyDoc × σ))
    (doc : PyDoc) (s : σ) (hit : SearchHit σ)
    (hone : search_documents_in_vectorstore [(doc, s)] = [hit]) :
    (search_documents_in_vectorstore results).length = results.length ∧
    hit.page_content = doc.page_content ∧ hit.metadata = doc.metadata ∧ hit.score = s ∧
    (∀ v, doc.metadata.lookup "uuid" = some v → pyTruthy v = true →
      hit.id = some (pyStr v)) ∧
    (∀ v, pyTruthyO (doc.metadata.lookup "uuid") = false →
      doc.metadata.lookup "id" = some v → pyTruthy v = true →
      hit.id = some (pyStr v)) ∧
    (pyTruthyO (doc.metadata.lookup "uuid") = false →
      pyTruthyO (doc.metadata.lookup "id") = false → hit.id = none) := by
  have hhit : hit =
      (⟨if pyTruthyO (pyOr (doc.metadata.lookup "uuid") (doc.metadata.lookup "id")) then
          (pyOr (doc.metadata.lookup "uuid") (doc.metadata.lookup "id")).map pyStr
        else none,
        doc.page_content, doc.metadata, s⟩ : SearchHit σ) := by
    simp only [search_documents_in_vectorstore, List.map_cons, List.map_nil] at hone
    injection hone with h1 h2
    exact h1.symm
  refine ⟨by simp [search_documents_in_vectorstore], ?_, ?_, ?_, ?_, ?_, ?_⟩
  · rw [hhit]
  · rw [hhit]
  · rw [hhit]
  · intro v hv htru
    rw [hhit]
    simp [pyOr, pyTruthyO, hv, htru]
  · intro v hu hv htru
    rw [hhit]
    have hb : pyOr (doc.metadata.lookup "uuid") (doc.metadata.lookup "id") = some v := by
      simp [pyOr, hu, hv]
    simp [hb, pyTruthyO, htru]
  · intro hu hid
    rw [hhit]
    have hb : pyTruthyO (pyOr (doc.metadata.lookup "uuid") (doc.metadata.lookup "id")) = false := by
      simp [pyOr, hu, hid]
    simp [hb]

/-- C10 witness: a hit with truthy uuid metadata gets that uuid as id. -/
theorem search_hit_id_truthiness_witness :
    ((search_documents_in_vectorstore ([] : List (PyDoc × Int))).length = 0 ∧
      ("t" : String) = "t" ∧
      ([("uuid", JValue.jstr "U")] : Metadata) = [("uuid", JValue.jstr "U")] ∧
      (0 : Int) = 0) ∧ (some "U" : Option String) = some "U" := by
  have h := search_hit_id_truthiness ([] : List (PyDoc × Int))
    ⟨"t", [("uuid", .jstr "U")]⟩ (0 : Int)
    ⟨some "U", "t", [("uuid", JValue.jstr "U")], 0⟩ (by rfl)
  exact ⟨⟨h.1, h.2.1, h.2.2.1, h.2.2.2.1⟩,
    (h.2.2.2.2.1 (.jstr "U") (by rfl) (by rfl)).symm ▸ rfl⟩

/-- C4 counterexample: on a connection whose queries raise a generic failure
(not the relation-missing condition), listDocuments returns an empty listing,
getChunk returns none and deleteDocumentsByFile returns false — each outcome an
ok value delivered to the caller, not a propagated error. -/
theorem backend_errors_swallowed_cex :
    list_documents_in_vectorstore
      ⟨⟨[⟨"c1", "col", []⟩], []⟩, some (.other "connection lost")⟩ "col" 10 0 = .ok [] ∧
    get_document_from_vectorstore
      ⟨⟨[], []⟩, some (.other "connection lost")⟩
      "00000000-0000-0000-0000-000000000000" = .ok none ∧
    delete_documents_from_vectorstore
      ⟨⟨[⟨"c1", "col", []⟩], []⟩, some (.other "connection lost")⟩ "col" ["f1"] =
      .ok (false, ⟨[⟨"c1", "col", []⟩], []⟩) :=
  ⟨rfl, rfl, rfl⟩

/-- C4 amended: a backend connection or query-execution failure inside the
chunk-store operations is caught, not propagated: listDocuments degrades to the
empty listing, getChunk (given a well-formed id) to none, and
deleteDocumentsByFile (given non-empty file_ids) to false, for generic failures
and the relation-missing condition alike. -/
theorem backend_errors_degrade_to_empty (db : DB) (e : DbError)
    (name did : String) (fids : List String) (limit offset : Nat)
    (hfid : fids ≠ []) (hdid : (uuidParse did).isSome) :
    list_documents_in_vectorstore ⟨db, some e⟩ name limit offset = .ok [] ∧
    get_document_from_vectorstore ⟨db, some e⟩ did = .ok none ∧
    delete_documents_from_vectorstore ⟨db, some e⟩ name fids = .ok (false, db) := by
  obtain ⟨du, hdu⟩ := Option.isSome_iff_exists.mp hdid
  have hempty : fids.isEmpty = false := by
    cases fids with
    | nil => exact absurd rfl hfid
    | cons a t => rfl
  refine ⟨?_, ?_, ?_⟩
  · cases e <;>
      simp [list_documents_in_vectorstore, listTryBody, Backend.fetchCollectionByName]
  · cases e <;>
      simp [get_document_from_vectorstore, hdu, Backend.fetchEmbeddingByUuid]
  · cases e <;>
      simp [delete_documents_from_vectorstore, hempty, deleteTryBody,
        Backend.fetchCollectionByName]

/-- C4 amended witness: concrete degraded outcomes under a generic failure. -/
theorem backend_errors_degrade_to_empty_witness :
    list_documents_in_vectorstore ⟨⟨[], []⟩, some (.other "boom")⟩ "c" 10 0 = .ok [] :=
  (backend_errors_degrade_to_empty ⟨[], []⟩ (.other "boom") "c"
    "00000000-0000-0000-0000-000000000000" ["f1"] 10 0 (by simp) (by rfl)).1

/-- C1 counterexample: the chunk-store operations resolve the collection by
name with no ownership predicate and no caller identity at all: on a table
whose only collection belongs to u2 (so the ownership predicate for any other
caller, here u1, is false), listDocuments returns the chunk of that collection
and deleteDocumentsByFile removes it. -/
theorem chunk_ops_bypass_ownership_cex :
    ownedB ⟨"c1", "col", [("owner_id", .jstr "u2")]⟩ "u1" = false ∧
    list_documents_in_vectorstore
      ⟨⟨[⟨"c1", "col", [("owner_id", .jstr "u2")]⟩],
        [⟨7, "u7", "c1", "secret", [("file_id", .jstr "f1")]⟩]⟩, none⟩ "col" 10 0 =
      .ok [⟨"7", "secret", [("file_id", .jstr "f1")], "c1"⟩] ∧
    delete_documents_from_vectorstore
      ⟨⟨[⟨"c1", "col", [("owner_id", .jstr "u2")]⟩],
        [⟨7, "u7", "c1", "secret", [("file_id", .jstr "f1")]⟩]⟩, none⟩ "col" ["f1"] =
      .ok (true, ⟨[⟨"c1", "col", [("owner_id", .jstr "u2")]⟩], []⟩) :=
  ⟨rfl, rfl, rfl⟩

/-- C1 amended: the ownership predicate is applied on every Collections-table
operation of the registry: list returns only rows owned by the caller, get and
the by-name lookup return a row only when the caller owns it, and update and
delete leave every row not owned by the caller untouched. (The chunk-store
operations listDocuments and deleteDocumentsByFile resolve collection_name with
no ownership predicate, as the counterexample shows.) -/
theorem registry_ownership_enforced (u cid cname : String) (nn : Option String)
    (mo : Option Metadata) (db : DB) :
    (∀ d ∈ Collections.list u db, metaText d.metadata "owner_id" = some u) ∧
    (∀ d, Collections.get u cid db = some d → metaText d.metadata "owner_id" = some u) ∧
    (∀ d, Collections.get_by_name u cname db = some d →
      metaText d.metadata "owner_id" = some u) ∧
    (∀ d db1, Collections.update u cid nn mo db = .ok (d, db1) →
      ∀ r ∈ db.collections, ownedB r u = false → r ∈ db1.collections) ∧
    (∀ n db1, Collections.delete u cid db = .ok (n, db1) →
      ∀ r ∈ db.collections, ownedB r u = false → r ∈ db1.collections) := by
  refine ⟨?_, ?_, ?_, ?_, ?_⟩
  · intro d hd
    simp only [Collections.list, List.mem_map, List.mem_insertionSort,
      List.mem_filter] at hd
    obtain ⟨r, ⟨hmem, hown⟩, hdr⟩ := hd
    rw [← hdr]
    simpa [ownedB, CollectionRow.details] using hown
  · intro d hd
    simp only [Collections.get, Option.map_eq_some'] at hd
    obtain ⟨r, hr, hdr⟩ := hd
    have := List.find?_some hr
    simp only [Bool.and_eq_true] at this
    rw [← hdr]
    simpa [ownedB, CollectionRow.details] using this.2
  · intro d hd
    simp only [Collections.get_by_name, Option.map_eq_some'] at hd
    obtain ⟨r, hr, hdr⟩ := hd
    have := List.find?_some hr
    simp only [Bool.and_eq_true] at this
    rw [← hdr]
    simpa [ownedB, CollectionRow.details] using this.2
  · intro d db1 hok r hr hown
    cases hf : db.collections.find? (fun c => c.uuid == cid && ownedB c u) with
    | none => simp [Collections.update, hf] at hok
    | some c0 =>
      simp only [Collections.update, hf] at hok
      obtain ⟨hd, hdb⟩ : _ ∧ _ := by
        injection hok with h1
        injection h1 with h2 h3
        exact ⟨h2, h3⟩
      rw [← hdb]
      have hhit : (r.uuid == cid && ownedB r u) = false := by
        simp [hown]
      have : (if (r.uuid == cid && ownedB r u) = true then
          { r with name := nn.getD r.name,
                   cmetadata := (mo.map fun m =>
                     dictSet m "owner_id" (.jstr u)).getD r.cmetadata } else r) = r := by
        rw [if_neg (by simp [hhit])]
      exact this ▸ List.mem_map_of_mem _ hr
  · intro n db1 hok r hr hown
    have hhit : (r.uuid == cid && ownedB r u) = false := by
      simp [hown]
    by_cases hz : ((db.collections.filter
        (fun c => c.uuid == cid && ownedB c u)).length == 0) = true
    · simp [Collections.delete, hz] at hok
    · simp only [Collections.delete, hz, Bool.false_eq_true, if_false] at hok
      obtain ⟨hn, hdb⟩ : _ ∧ _ := by
        injection hok with h1
        injection h1 with h2 h3
        exact ⟨h2, h3⟩
      rw [← hdb]
      simp only [List.mem_filter, hr, true_and, Bool.not_eq_eq_eq_not, Bool.not_true,
        Bool.and_eq_false_iff]
      simp [hown]

/-- C1 amended witness: deleting c1 as u1 leaves the row owned by u2 in place. -/
theorem registry_ownership_enforced_witness :
    (⟨"c2", "Y", [("owner_id", JValue.jstr "u2")]⟩ : CollectionRow) ∈
      (⟨[⟨"c2", "Y", [("owner_id", JValue.jstr "u2")]⟩], []⟩ : DB).collections :=
  (registry_ownership_enforced "u1" "c1" "X" none none
      ⟨[⟨"c1", "X", [("owner_id", JValue.jstr "u1")]⟩,
        ⟨"c2", "Y", [("owner_id", JValue.jstr "u2")]⟩], []⟩).2.2.2.2
    1 ⟨[⟨"c2", "Y", [("owner_id", JValue.jstr "u2")]⟩], []⟩ (by rfl)
    ⟨"c2", "Y", [("owner_id", JValue.jstr "u2")]⟩ (by simp) (by rfl)

/-- C3: a successful deleteCollection removes every chunk row of that
collection (through the schema cascade), and a subsequent listDocuments on the
collection name returns the empty listing, for any limit and offset. The
hypotheses state that the uuid denotes a collection of the calling user and
that the name denotes no other collection. -/
theorem deleteCollection_cascade_empties_listing (u cid cname : String) (db : DB)
    (n : Nat) (db1 : DB)
    (hok : deleteCollection u cid db = .ok (n, db1))
    (huuid : ∀ c ∈ db.collections, c.uuid = cid → ownedB c u = true)
    (hname : ∀ c ∈ db.collections, c.name = cname → c.uuid = cid) :
    (∀ e ∈ db1.embeddings, e.collection_id ≠ cid) ∧
    (∀ limit offset, list_documents_in_vectorstore ⟨db1, none⟩ cname limit offset = .ok []) := by
  by_cases hz : ((db.collections.filter
      (fun c => c.uuid == cid && ownedB c u)).length == 0) = true
  · simp [deleteCollection, Collections.delete, hz, Except.map] at hok
  · simp only [deleteCollection, Collections.delete, hz, Bool.false_eq_true, if_false,
      Except.map_ok] at hok
    obtain ⟨hn, hdb⟩ : _ ∧ _ := by
      injection hok with h1
      injection h1 with h2 h3
      exact ⟨h2, h3⟩
    have hcol : ∀ c ∈ db.collections.filter (fun c => !(c.uuid == cid && ownedB c u)),
        c.uuid ≠ cid := by
      intro c hc
      rw [List.mem_filter] at hc
      intro heq
      have hown := huuid c hc.1 heq
      have := hc.2
      simp [heq, hown] at this
    constructor
    · intro e he heq
      rw [← hdb] at he
      simp only [cascadeChunks, List.mem_filter, List.any_eq_true] at he
      obtain ⟨hmem, c, hc, hcu⟩ := he
      exact hcol c (List.mem_filter.mpr hc) (by simpa [heq] using hcu)
    · intro limit offset
      have hres : (db.collections.filter
          (fun c => !(c.uuid == cid && ownedB c u))).find?
            (fun c => c.name == cname) = none := by
        rw [List.find?_eq_none]
        intro x hx hcontra
        have hx0 : x ∈ db.collections := List.mem_of_mem_filter hx
        exact hcol x hx (hname x hx0 (by simpa using hcontra))
      rw [← hdb]
      have hfetch : (Backend.mk (cascadeChunks ⟨db.collections.filter
          (fun c => !(c.uuid == cid && ownedB c u)), db.embeddings⟩)
            none).fetchCollectionByName cname = .ok none := by
        show Except.ok (List.find? (fun c => c.name == cname)
          (db.collections.filter (fun c => !(c.uuid == cid && ownedB c u)))) =
            Except.ok none
        rw [hres]
      show list_documents_in_vectorstore (Backend.mk (cascadeChunks
          ⟨db.collections.filter (fun c => !(c.uuid == cid && ownedB c u)),
            db.embeddings⟩) none) cname limit offset = .ok []
      simp only [list_documents_in_vectorstore, listTryBody, hfetch]

/-- C3 witness: deleting the only collection removes its chunk and empties the
listing for its name. -/
theorem deleteCollection_cascade_empties_listing_witness :
    list_documents_in_vectorstore ⟨⟨[], []⟩, none⟩ "col" 10 0 = .ok [] :=
  (deleteCollection_cascade_empties_listing "u" "c1" "col"
      ⟨[⟨"c1", "col", [("owner_id", JValue.jstr "u")]⟩],
        [⟨1, "x1", "c1", "d", [("file_id", JValue.jstr "f")]⟩]⟩ 1 ⟨[], []⟩
      (by rfl) (by decide) (by decide)).2 10 0

theorem strLt_ne {a b : String} (h : strLt a b = true) : a ≠ b := by
  intro he
  rw [he, strLt_irrefl] at h
  exact Bool.false_ne_true h

theorem mem_of_mem_distinctAux {prev : EmbeddingRow} {l : List EmbeddingRow}
    {x : EmbeddingRow} (hx : x ∈ distinctAux prev l) : x ∈ l := by
  induction l generalizing prev with
  | nil => simp [distinctAux] at hx
  | cons e rest ih =>
    simp only [distinctAux] at hx
    split at hx
    · exact List.mem_cons_of_mem _ (ih hx)
    · rcases List.mem_cons.mp hx with h1 | h1
      · exact h1 ▸ List.mem_cons_self _ _
      · exact List.mem_cons_of_mem _ (ih h1)

theorem sorted_cons_of_cons_cons {prev e : EmbeddingRow} {rest : List EmbeddingRow}
    (hs : List.Sorted embRel (prev :: e :: rest)) :
    List.Sorted embRel (prev :: rest) := by
  have h1 := List.pairwise_cons.mp hs
  exact List.pairwise_cons.mpr
    ⟨fun x hx => h1.1 x (List.mem_cons_of_mem _ hx), (List.pairwise_cons.mp h1.2).2⟩

theorem distinctAux_bound {prev : EmbeddingRow} {l : List EmbeddingRow}
    (hs : List.Sorted embRel (prev :: l)) :
    ∀ x ∈ distinctAux prev l, strLt (fidKey prev) (fidKey x) = true := by
  induction l generalizing prev with
  | nil => intro x hx; simp [distinctAux] at hx
  | cons e rest ih =>
    intro x hx
    simp only [distinctAux] at hx
    split at hx
    case isTrue h => exact ih (sorted_cons_of_cons_cons hs) x hx
    case isFalse h =>
      have hfe : ¬ fidKey e = fidKey prev := by simpa using h
      have hrel : embRel prev e := List.rel_of_sorted_cons hs e (by simp)
      have hlt : strLt (fidKey prev) (fidKey e) = true := by
        rcases hrel with h1 | ⟨h1, _⟩
        · exact h1
        · exact absurd h1.symm hfe
      rcases List.mem_cons.mp hx with h1 | h1
      · rw [h1]; exact hlt
      · exact strLt_trans hlt (ih hs.of_cons x h1)

theorem distinctAux_pairwise {prev : EmbeddingRow} {l : List EmbeddingRow}
    (hs : List.Sorted embRel (prev :: l)) :
    (distinctAux prev l).Pairwise (fun a b => strLt (fidKey a) (fidKey b) = true) := by
  induction l generalizing prev with
  | nil => simp [distinctAux]
  | cons e rest ih =>
    simp only [distinctAux]
    split
    case isTrue h => exact ih (sorted_cons_of_cons_cons hs)
    case isFalse h =>
      rw [List.pairwise_cons]
      exact ⟨fun b hb => distinctAux_bound hs.of_cons b hb, ih hs.of_cons⟩

theorem distinctAux_min {prev : EmbeddingRow} {l : List EmbeddingRow}
    (hs : List.Sorted embRel (prev :: l)) :
    ∀ r ∈ distinctAux prev l, ∀ r2 ∈ l, fidKey r2 = fidKey r → r.id ≤ r2.id := by
  induction l generalizing prev with
  | nil => intro r hr; simp [distinctAux] at hr
  | cons e rest ih =>
    intro r hr r2 hr2 hfid
    simp only [distinctAux] at hr
    split at hr
    case isTrue h =>
      have heq : fidKey e = fidKey prev := by simpa using h
      have hb := distinctAux_bound (sorted_cons_of_cons_cons hs) r hr
      rcases List.mem_cons.mp hr2 with he2 | he2
      · exfalso
        apply strLt_ne hb
        rw [← hfid, he2, heq]
      · exact ih (sorted_cons_of_cons_cons hs) r hr r2 he2 hfid
    case isFalse h =>
      rcases List.mem_cons.mp hr with hre | hre
      · rcases List.mem_cons.mp hr2 with he2 | he2
        · rw [hre, he2]
        · have hrel := List.rel_of_sorted_cons hs.of_cons r2 he2
          rcases hrel with h1 | ⟨_, h2⟩
          · exfalso
            apply strLt_ne h1
            rw [hfid, hre]
          · rw [hre]; exact h2
      · have hb := distinctAux_bound hs.of_cons r hre
        rcases List.mem_cons.mp hr2 with he2 | he2
        · exfalso
          apply strLt_ne hb
          rw [← hfid, he2]
        · exact ih hs.of_cons r hre r2 he2 hfid

theorem mem_of_mem_distinctOn {l : List EmbeddingRow} {x : EmbeddingRow}
    (hx : x ∈ distinctOn l) : x ∈ l := by
  cases l with
  | nil => simp [distinctOn] at hx
  | cons e rest =>
    simp only [distinctOn] at hx
    rcases List.mem_cons.mp hx with h1 | h1
    · exact h1 ▸ List.mem_cons_self _ _
    · exact List.mem_cons_of_mem _ (mem_of_mem_distinctAux h1)

theorem distinctOn_pairwise {l : List EmbeddingRow} (hs : List.Sorted embRel l) :
    (distinctOn l).Pairwise (fun a b => strLt (fidKey a) (fidKey b) = true) := by
  cases l with
  | nil => simp [distinctOn]
  | cons e rest =>
    simp only [distinctOn]
    rw [List.pairwise_cons]
    exact ⟨fun b hb => distinctAux_bound hs b hb, distinctAux_pairwise hs⟩

theorem distinctOn_min {l : List EmbeddingRow} (hs : List.Sorted embRel l) :
    ∀ r ∈ distinctOn l, ∀ r2 ∈ l, fidKey r2 = fidKey r → r.id ≤ r2.id := by
  cases l with
  | nil => intro r hr; simp [distinctOn] at hr
  | cons e rest =>
    intro r hr r2 hr2 hfid
    simp only [distinctOn] at hr
    rcases List.mem_cons.mp hr with hre | hre
    · rcases List.mem_cons.mp hr2 with he2 | he2
      · rw [hre, he2]
      · have hrel := List.rel_of_sorted_cons hs r2 he2
        rcases hrel with h1 | ⟨_, h2⟩
        · exfalso
          apply strLt_ne h1
          rw [hfid, hre]
        · rw [hre]; exact h2
    · have hb := distinctAux_bound hs r hre
      rcases List.mem_cons.mp hr2 with he2 | he2
      · exfalso
        apply strLt_ne hb
        rw [← hfid, he2]
      · exact distinctAux_min hs r hre r2 he2 hfid

theorem fileId_eq_some_fidKey {e : EmbeddingRow} (h : (fileIdText e).isSome = true) :
    fileIdText e = some (fidKey e) := by
  obtain ⟨v, hv⟩ := Option.isSome_iff_exists.mp h
  rw [hv]
  simp [fidKey, hv]

/-- C7: when the collection name resolves, listDocuments returns the
deduplicated view paginated afterwards: the result is drop offset / take limit
of the full view; the full view carries at most one entry per distinct file_id,
in ascending file_id text order; every entry carries a file_id (chunks without
one are excluded); and each returned row is the chunk with the lowest id among
the chunks of its collection sharing its file_id. -/
theorem list_documents_dedup_pagination (db : DB) (cname : String)
    (limit offset : Nat) (col : CollectionRow)
    (hres : db.collections.find? (fun c => c.name == cname) = some col) :
    list_documents_in_vectorstore ⟨db, none⟩ cname limit offset =
      .ok ((((chunkView db col.uuid).map (toEntry col.uuid)).drop offset).take limit) ∧
    ((chunkView db col.uuid).map (toEntry col.uuid)).Pairwise
      (fun a b => ∃ fa fb, metaText a.metadata "file_id" = some fa ∧
        metaText b.metadata "file_id" = some fb ∧ strLt fa fb = true) ∧
    (∀ d ∈ (chunkView db col.uuid).map (toEntry col.uuid),
      (metaText d.metadata "file_id").isSome = true) ∧
    (∀ r ∈ chunkView db col.uuid,
      r ∈ db.embeddings ∧ r.collection_id = col.uuid ∧
      ∀ r2 ∈ db.embeddings, r2.collection_id = col.uuid →
        fileIdText r2 = fileIdText r → r.id ≤ r2.id) := by
  have hsorted : List.Sorted embRel ((db.embeddings.filter
      (fun e => e.collection_id == col.uuid
        && (fileIdText e).isSome)).insertionSort embRel) :=
    List.sorted_insertionSort embRel _
  have hmem_view : ∀ r ∈ chunkView db col.uuid,
      r ∈ db.embeddings ∧ (r.collection_id == col.uuid
        && (fileIdText r).isSome) = true := by
    intro r hr
    have h1 := mem_of_mem_distinctOn hr
    rw [List.mem_insertionSort] at h1
    exact List.mem_filter.mp h1
  refine ⟨?_, ?_, ?_, ?_⟩
  · have hfetch : (Backend.mk db none).fetchCollectionByName cname = .ok (some col) := by
      show Except.ok (db.collections.find? (fun c => c.name == cname)) = .ok (some col)
      rw [hres]
    simp only [list_documents_in_vectorstore, listTryBody, hfetch,
      Backend.fetchListQuery, List.map_take, List.map_drop]
  · rw [List.pairwise_map]
    apply List.Pairwise.imp_of_mem ?_ (distinctOn_pairwise hsorted)
    intro a b ha hb hlt
    have hfa := (hmem_view a ha).2
    have hfb := (hmem_view b hb).2
    simp only [Bool.and_eq_true] at hfa hfb
    refine ⟨fidKey a, fidKey b, ?_, ?_, hlt⟩
    · exact fileId_eq_some_fidKey hfa.2
    · exact fileId_eq_some_fidKey hfb.2
  · intro d hd
    rw [List.mem_map] at hd
    obtain ⟨r, hr, hdr⟩ := hd
    have := (hmem_view r hr).2
    simp only [Bool.and_eq_true] at this
    rw [← hdr]
    exact this.2
  · intro r hr
    have h1 := hmem_view r hr
    simp only [Bool.and_eq_true, beq_iff_eq] at h1
    refine ⟨h1.1, h1.2.1, ?_⟩
    intro r2 hr2 hcol2 hfid2
    have hsome2 : (fileIdText r2).isSome = true := by
      rw [hfid2]
      exact h1.2.2
    have hr2mem : r2 ∈ (db.embeddings.filter
        (fun e => e.collection_id == col.uuid && (fileIdText e).isSome)).insertionSort
          embRel := by
      rw [List.mem_insertionSort, List.mem_filter]
      exact ⟨hr2, by simp [hcol2, hsome2]⟩
    have hkey : fidKey r2 = fidKey r := by
      simp [fidKey, hfid2]
    exact distinctOn_min hsorted r hr r2 hr2mem hkey

/-- C7 witness: three f1 chunks (ids 2, 1, 6), one f2 chunk and one chunk
without file_id give a two-entry listing: the lowest-id chunk per file id, in
file id order, and with offset 1 / limit 1 only the second entry remains. -/
theorem list_documents_dedup_pagination_witness :
    list_documents_in_vectorstore
      ⟨⟨[⟨"c1", "col", []⟩],
        [⟨2, "ua", "c1", "hello", [("file_id", JValue.jstr "f1")]⟩,
         ⟨1, "ub", "c1", "world", [("file_id", JValue.jstr "f1")]⟩,
         ⟨6, "uf", "c1", "again", [("file_id", JValue.jstr "f1")]⟩,
         ⟨3, "uc", "c1", "zeta", [("file_id", JValue.jstr "f2")]⟩,
         ⟨4, "ud", "c1", "nofid", []⟩]⟩, none⟩ "col" 10 0 =
      .ok [⟨"1", "world", [("file_id", JValue.jstr "f1")], "c1"⟩,
           ⟨"3", "zeta", [("file_id", JValue.jstr "f2")], "c1"⟩] :=
  (list_documents_dedup_pagination
      ⟨[⟨"c1", "col", []⟩],
        [⟨2, "ua", "c1", "hello", [("file_id", JValue.jstr "f1")]⟩,
         ⟨1, "ub", "c1", "world", [("file_id", JValue.jstr "f1")]⟩,
         ⟨6, "uf", "c1", "again", [("file_id", JValue.jstr "f1")]⟩,
         ⟨3, "uc", "c1", "zeta", [("file_id", JValue.jstr "f2")]⟩,
         ⟨4, "ud", "c1", "nofid", []⟩]⟩ "col" 10 0 ⟨"c1", "col", []⟩ (by rfl)).1
